import Mathlib

/-!
Shallow embedding of the three toy ciphers in this repository
(Day1-ABitTroubling.c, Day3-RegressionAndProgress, Day5-InsideOutAndBackwards.c).

Modelling conventions:
* C strings / byte buffers are `List Nat` of byte values (each < 256); the
  terminating NUL of a C string is not part of the list, and an indexed read
  one past the content (`key[strlen(key)]`) yields the terminator byte 0,
  which `keyByte` models.
* `char` is modelled as signed (the usual x86 ABI choice the programs were
  written against): `sprintf("%02X", (int)c)` sign-extends a byte `b ≥ 0x80`
  to the 32-bit value `0xFFFFFF00 + b` and therefore prints eight hex
  characters, which `sprintfHexField` reproduces.
* Byte stores truncate mod 256.
* The out-of-bounds behaviour of the `do while` loops on empty inputs is
  modelled by the `...Checked` variants, which perform every plaintext,
  ciphertext and key access through an `Option`-returning bounds check and
  mirror the body-first `do while` structure of the C loops.
-/

namespace FiveDays

/-- Read of `key[i]` on a C string whose content is `key`: an index equal to
the content length reads the NUL terminator, value 0.  (Indices beyond the
terminator never occur in any of the loops below.) -/
def keyByte (key : List Nat) (i : Nat) : Nat := key.getD i 0

/-- ASCII code of the uppercase hexadecimal digit for `n < 16`, as produced
by `printf %X`. -/
def hexDigit (n : Nat) : Nat := if n < 10 then 48 + n else 55 + n

/-- The characters `sprintf(buf, "%02X", (int)c)` writes for one byte `b`
(excluding the trailing NUL).  For `b < 0x80` the `int` equals `b` and two
zero-padded digits appear; for `b ≥ 0x80` the signed `char` sign-extends to
`0xFFFFFF00 + b`, printing eight digits `FFFFFF` followed by the two digits
of `b`.  70 is the ASCII code of `F`. -/
def sprintfHexField (b : Nat) : List Nat :=
  if b < 128 then [hexDigit (b / 16), hexDigit (b % 16)]
  else [70, 70, 70, 70, 70, 70, hexDigit (b % 256 / 16), hexDigit (b % 16)]

/-- Overwrite the cells of `buf` starting at `pos` with the characters of
`s` (the semantics of `sprintf` writing into the middle of a buffer). -/
def writeChars (buf : List Nat) (pos : Nat) (s : List Nat) : List Nat :=
  match s with
  | [] => buf
  | c :: cs => writeChars (buf.set pos c) (pos + 1) cs

/-- The `for` loop of `charToHex`: for each byte `b` at index `i`,
`sprintf(retval + 2*i, "%02X", (int)b)` writes its field plus a NUL. -/
def hexWriteLoop : List Nat → Nat → List Nat → List Nat
  | [], _, buf => buf
  | b :: rest, i, buf => hexWriteLoop rest (i + 1) (writeChars buf (2 * i) (sprintfHexField b ++ [0]))

/-- The raw `calloc(2*len + 1, 1)` buffer of `charToHex` after its loop. -/
def hexBuf (bytes : List Nat) : List Nat :=
  hexWriteLoop bytes 0 (List.replicate (2 * bytes.length + 1) 0)

/-- Content of a returned `char*` used as a C string: the bytes before the
first NUL. -/
def strRead (l : List Nat) : List Nat := l.takeWhile (fun c => c != 0)

/-- The `charToHex` of Day1 and Day3 as the C string it returns. -/
def charToHex (bytes : List Nat) : List Nat := strRead (hexBuf bytes)

/-- Modelled from the spec words for claim comparison (§4.1): each byte
rendered as exactly two uppercase hexadecimal digits, zero-padded,
most-significant nibble first, in input order, no separators. -/
def hexEncodeSpec : List Nat → List Nat
  | [] => []
  | b :: rest => hexDigit (b / 16) :: hexDigit (b % 16) :: hexEncodeSpec rest

/-- The `rev` of Day5: `calloc(len, 1)` then `retval[i] = input[len - 2 - i]`
for `i < len - 1`.  The list returned is the written content (the final
zeroed cell is the string terminator of the result). -/
def rev (input : List Nat) : List Nat :=
  (List.range (input.length - 1)).map (fun i => input.getD (input.length - 2 - i) 0)

/-- The `charToHex` of Day5: same hex loop, but the raw buffer (length
`2*len + 1`, NUL included) is passed through `rev`. -/
def charToHexD5 (bytes : List Nat) : List Nat := rev (hexBuf bytes)

/-- Loop body sequence of Day1's `crypt`.  State: `kc` is `k_char` (the key
byte loaded at the end of the previous iteration, initially `key[0]`), `ki`
is `k_index`, `kb` is `k_bit_index`.  Each iteration emits the ciphertext
byte together with the value of `k_index` at the head of the body (the index
at which `key` is read by the XOR branch); the second component of the
result is the final `k_index` used by the trailing `k_char = key[k_index]`
load after the last iteration. -/
def cryptALoop (key : List Nat) (kc ki kb : Nat) : List Nat → List (Nat × Nat) × Nat
  | [] => ([], ki)
  | b :: rest =>
    let out := if (1 <<< kb) &&& kc ≠ 0 then (b ^^^ keyByte key ki) % 256 else b
    let kb2 := if kb + 1 = 7 then 0 else kb + 1
    let kiA := if kb + 1 = 7 then ki + 1 else ki
    let ki2 := if kiA = key.length then 0 else kiA
    let r := cryptALoop key (keyByte key ki2) ki2 kb2 rest
    ((out, ki) :: r.1, r.2)

/-- Per-iteration trace of Day1's `crypt` (ciphertext byte, `k_index`). -/
def cryptATrace (key pt : List Nat) : List (Nat × Nat) :=
  (cryptALoop key (keyByte key 0) 0 0 pt).1

/-- The `k_index` live after Day1's loop exits. -/
def cryptAFinalIndex (key pt : List Nat) : Nat :=
  (cryptALoop key (keyByte key 0) 0 0 pt).2

/-- Ciphertext bytes of Day1's `crypt` before hex encoding. -/
def cryptA_bytes (key pt : List Nat) : List Nat :=
  (cryptATrace key pt).map Prod.fst

/-- Full Day1 `crypt`: transform then `charToHex`. -/
def cryptA (key pt : List Nat) : List Nat := charToHex (cryptA_bytes key pt)

/-- Loop body sequence of Day3's `crypt` (`index` starts at `i0`): output is
`pt - 1` (as a byte) when `index % (p+q) > p - 1` and `pt + 1` otherwise. -/
def cryptBLoop (p q : Int) (i0 : Nat) : List Nat → List Nat
  | [] => []
  | b :: rest =>
    (if (i0 : Int) % (p + q) > p - 1 then (b + 255) % 256 else (b + 1) % 256) ::
      cryptBLoop p q (i0 + 1) rest

/-- Ciphertext bytes of Day3's `crypt` before hex encoding. -/
def cryptB_bytes (p q : Int) (pt : List Nat) : List Nat := cryptBLoop p q 0 pt

/-- Full Day3 `crypt`: transform then `charToHex`. -/
def cryptB (p q : Int) (pt : List Nat) : List Nat := charToHex (cryptB_bytes p q pt)

/-- Loop body sequence of Day5's `crypt`.  State: `ri` = `repeat_index`,
`si` = `skip_index`, `ki` = `key_index`, `skip` = the `skip` flag.  Each
iteration emits `(ciphertext byte, in flip branch?, key_index at entry)`;
in the flip branch `key[key_index]` is read at that entry index (reading
index `key.length` hits the NUL terminator, see `keyByte`). -/
def cryptCLoop (key : List Nat) (n : Nat) (ri si ki : Nat) (skip : Bool) :
    List Nat → List (Nat × Bool × Nat)
  | [] => []
  | b :: rest =>
    if skip then
      let sk := si + 1 < n
      let si2 := if sk then si + 1 else 0
      (b, false, ki) :: cryptCLoop key n ri si2 ki sk rest
    else
      let out := (b ^^^ 127) % 256
      let sk := ((ri + 1 : Nat) : Int) < (keyByte key ki : Int) - 48
      let ri2 := if sk then 0 else ri + 1
      let kiA := if sk then (if ki + 1 > key.length then 0 else ki + 1) else ki
      (out, true, ki) :: cryptCLoop key n ri2 si kiA sk rest

/-- Per-iteration trace of Day5's `crypt`. -/
def cryptCTrace (key : List Nat) (n : Nat) (pt : List Nat) : List (Nat × Bool × Nat) :=
  cryptCLoop key n 0 0 0 false pt

/-- Ciphertext bytes of Day5's `crypt` before hex encoding. -/
def cryptC_bytes (key : List Nat) (n : Nat) (pt : List Nat) : List Nat :=
  (cryptCTrace key n pt).map (fun e => e.1)

/-- The `key_index` values at which `key` is read by Day5's flip branch, in
order. -/
def cryptCKeyReads (key : List Nat) (n : Nat) (pt : List Nat) : List Nat :=
  (cryptCTrace key n pt).filterMap (fun e => if e.2.1 then some e.2.2 else none)

/-- Full Day5 `crypt`: transform, then Day5's `charToHex` (hex + `rev`). -/
def cryptC (key : List Nat) (n : Nat) (pt : List Nat) : List Nat :=
  charToHexD5 (cryptC_bytes key n pt)

/-- Day1's `do while` loop with every buffer access bounds-checked: a read
or write outside the content of `plaintext`, `key` or the
`calloc(strlen(plaintext), 1)` ciphertext buffer takes the `none` branch.
The body runs before the `t_index < strlen(plaintext)` test, exactly as in
the C `do while`; `fuel` only bounds the iteration count (it starts at
`pt.length`, which the loop never exhausts). -/
def cryptACheckedLoop (key pt : List Nat) (fuel : Nat) (ct : List Nat) (kc ki kb t : Nat) :
    Option (List Nat) :=
  match pt.get? t with
  | none => none
  | some b =>
    let out? : Option Nat :=
      if (1 <<< kb) &&& kc ≠ 0 then (key.get? ki).map (fun k => (b ^^^ k) % 256)
      else some b
    match out? with
    | none => none
    | some out =>
      if t < ct.length then
        let ct2 := ct.set t out
        let kb2 := if kb + 1 = 7 then 0 else kb + 1
        let kiA := if kb + 1 = 7 then ki + 1 else ki
        let ki2 := if kiA = key.length then 0 else kiA
        match key.get? ki2 with
        | none => none
        | some kc2 =>
          if t + 1 < pt.length then
            match fuel with
            | 0 => none
            | fuel + 1 => cryptACheckedLoop key pt fuel ct2 kc2 ki2 kb2 (t + 1)
          else some ct2
      else none

/-- Day1's `crypt` with bounds-checked accesses: the initial
`char k_char = key[0]` load, then the `do while` loop. -/
def cryptAChecked (key pt : List Nat) : Option (List Nat) :=
  match key.get? 0 with
  | none => none
  | some kc => cryptACheckedLoop key pt pt.length (List.replicate pt.length 0) kc 0 0 0

/-- Day3's `do while` loop with bounds-checked accesses, body first. -/
def cryptBCheckedLoop (p q : Int) (pt : List Nat) (fuel : Nat) (ct : List Nat) (i : Nat) :
    Option (List Nat) :=
  match pt.get? i with
  | none => none
  | some b =>
    let out := if (i : Int) % (p + q) > p - 1 then (b + 255) % 256 else (b + 1) % 256
    if i < ct.length then
      let ct2 := ct.set i out
      if i + 1 < pt.length then
        match fuel with
        | 0 => none
        | fuel + 1 => cryptBCheckedLoop p q pt fuel ct2 (i + 1)
      else some ct2
    else none

/-- Day3's `crypt` with bounds-checked accesses. -/
def cryptBChecked (p q : Int) (pt : List Nat) : Option (List Nat) :=
  cryptBCheckedLoop p q pt pt.length (List.replicate pt.length 0) 0

/-- Day5's `do while` loop with bounds-checked accesses, body first; the
flip branch reads `key[key_index]` through `List.get?`, so the NUL
terminator read is also reported as out-of-content. -/
def cryptCCheckedLoop (key : List Nat) (n : Nat) (pt : List Nat) (fuel : Nat) (ct : List Nat)
    (ri si ki t : Nat) (skip : Bool) : Option (List Nat) :=
  match pt.get? t with
  | none => none
  | some b =>
    if skip then
      let sk := si + 1 < n
      let si2 := if sk then si + 1 else 0
      if t < ct.length then
        let ct2 := ct.set t b
        if t + 1 < pt.length then
          match fuel with
          | 0 => none
          | fuel + 1 => cryptCCheckedLoop key n pt fuel ct2 ri si2 ki (t + 1) sk
        else some ct2
      else none
    else
      if t < ct.length then
        let ct2 := ct.set t ((b ^^^ 127) % 256)
        match key.get? ki with
        | none => none
        | some kd =>
          let sk := ((ri + 1 : Nat) : Int) < (kd : Int) - 48
          let ri2 := if sk then 0 else ri + 1
          let kiA := if sk then (if ki + 1 > key.length then 0 else ki + 1) else ki
          if t + 1 < pt.length then
            match fuel with
            | 0 => none
            | fuel + 1 => cryptCCheckedLoop key n pt fuel ct2 ri2 si kiA (t + 1) sk
          else some ct2
      else none

/-- Day5's `crypt` with bounds-checked accesses. -/
def cryptCChecked (key : List Nat) (n : Nat) (pt : List Nat) : Option (List Nat) :=
  cryptCCheckedLoop key n pt pt.length (List.replicate pt.length 0) 0 0 0 0 false

/-! ### Helper lemmas -/

lemma hexDigit_pos (n : Nat) : 0 < hexDigit n := by
  unfold hexDigit; split <;> omega

lemma hexEncodeSpec_pos : ∀ (bytes : List Nat), ∀ c ∈ hexEncodeSpec bytes, 0 < c
  | [], c, hc => by simp [hexEncodeSpec] at hc
  | b :: rest, c, hc => by
    simp only [hexEncodeSpec, List.mem_cons] at hc
    rcases hc with rfl | rfl | h
    · exact hexDigit_pos _
    · exact hexDigit_pos _
    · exact hexEncodeSpec_pos rest c h

lemma hexEncodeSpec_length : ∀ (bytes : List Nat),
    (hexEncodeSpec bytes).length = 2 * bytes.length
  | [] => rfl
  | b :: rest => by
    simp [hexEncodeSpec, hexEncodeSpec_length rest]
    omega

/-- The C bit test `(1 << i) & x != 0` holds exactly when bit `i` of `x` is
set. -/
lemma bit_test_iff (x i : Nat) : ((1 <<< i) &&& x ≠ 0) ↔ x.testBit i := by
  rw [Nat.one_shiftLeft, Nat.two_pow_and]
  cases h : x.testBit i <;> simp [h]

/-- The reset-on-equality index wrap computes the successor modulo `len`. -/
lemma mod_wrap_succ (a len : Nat) (h : 0 < len) :
    (if a % len + 1 = len then 0 else a % len + 1) = (a + 1) % len := by
  have hlt : a % len < len := Nat.mod_lt _ h
  have h1 : (a + 1) % len = (a % len + 1) % len := by
    conv_lhs => rw [← Nat.div_add_mod a len]
    rw [Nat.add_assoc, Nat.mul_add_mod]
  rw [h1]
  split
  · next heq => rw [heq, Nat.mod_self]
  · next hne => exact (Nat.mod_eq_of_lt (by omega)).symm

lemma writeChars_fill : ∀ (s pre : List Nat) (k : Nat), s.length ≤ k →
    writeChars (pre ++ List.replicate k 0) pre.length s =
      pre ++ s ++ List.replicate (k - s.length) 0
  | [], pre, k, _ => by simp [writeChars]
  | c :: cs, pre, 0, h => by simp at h
  | c :: cs, pre, k + 1, h => by
    have hlen : cs.length ≤ k := by simpa using h
    have step :
        (pre ++ List.replicate (k + 1) (0 : Nat)).set pre.length c =
          (pre ++ [c]) ++ List.replicate k 0 := by
      rw [List.replicate_succ, List.set_append_right _ _ (Nat.le_refl _)]
      simp
    have ih := writeChars_fill cs (pre ++ [c]) k hlen
    calc writeChars (pre ++ List.replicate (k + 1) 0) pre.length (c :: cs)
        = writeChars ((pre ++ [c]) ++ List.replicate k 0) (pre.length + 1) cs := by
          rw [writeChars, step]
      _ = (pre ++ [c]) ++ cs ++ List.replicate (k - cs.length) 0 := by
          simpa using ih
      _ = pre ++ (c :: cs) ++ List.replicate (k + 1 - (c :: cs).length) 0 := by
          simp [List.append_assoc]

lemma hexWriteLoop_ascii : ∀ (bytes : List Nat), (∀ b ∈ bytes, b < 128) →
    ∀ (i : Nat) (pre : List Nat), pre.length = 2 * i →
    hexWriteLoop bytes i (pre ++ List.replicate (2 * bytes.length + 1) 0) =
      pre ++ hexEncodeSpec bytes ++ [0]
  | [], _, i, pre, _ => by simp [hexWriteLoop, hexEncodeSpec, List.replicate_succ]
  | b :: rest, hb, i, pre, hpre => by
    have hb0 : b < 128 := hb b (List.mem_cons_self b rest)
    have hrest : ∀ x ∈ rest, x < 128 := fun x hx => hb x (List.mem_cons_of_mem _ hx)
    have hfield : sprintfHexField b ++ [0] = [hexDigit (b / 16), hexDigit (b % 16), 0] := by
      simp [sprintfHexField, hb0]
    have hw := writeChars_fill [hexDigit (b / 16), hexDigit (b % 16), 0] pre
      (2 * (b :: rest).length + 1)
      (by simp only [List.length_cons, List.length_nil]; omega)
    have hrep : 2 * (b :: rest).length + 1 -
        ([hexDigit (b / 16), hexDigit (b % 16), 0] : List Nat).length = 2 * rest.length := by
      simp only [List.length_cons, List.length_nil]; omega
    have hbufeq :
        writeChars (pre ++ List.replicate (2 * (b :: rest).length + 1) 0) (2 * i)
            (sprintfHexField b ++ [0]) =
          (pre ++ [hexDigit (b / 16), hexDigit (b % 16)]) ++
            List.replicate (2 * rest.length + 1) 0 := by
      rw [hfield, ← hpre, hw, hrep]
      simp [List.append_assoc, List.replicate_succ]
    have ih := hexWriteLoop_ascii rest hrest (i + 1)
      (pre ++ [hexDigit (b / 16), hexDigit (b % 16)]) (by simp [hpre]; omega)
    calc hexWriteLoop (b :: rest) i (pre ++ List.replicate (2 * (b :: rest).length + 1) 0)
        = hexWriteLoop rest (i + 1)
            ((pre ++ [hexDigit (b / 16), hexDigit (b % 16)]) ++
              List.replicate (2 * rest.length + 1) 0) := by
          rw [hexWriteLoop, hbufeq]
      _ = (pre ++ [hexDigit (b / 16), hexDigit (b % 16)]) ++ hexEncodeSpec rest ++ [0] := ih
      _ = pre ++ hexEncodeSpec (b :: rest) ++ [0] := by
          simp [hexEncodeSpec, List.append_assoc]

lemma hexBuf_ascii (bytes : List Nat) (h : ∀ b ∈ bytes, b < 128) :
    hexBuf bytes = hexEncodeSpec bytes ++ [0] := by
  have := hexWriteLoop_ascii bytes h 0 [] rfl
  simpa [hexBuf] using this

lemma strRead_of_pos (l : List Nat) (h : ∀ c ∈ l, c ≠ 0) : strRead l = l := by
  unfold strRead
  have happ := @List.takeWhile_append_of_pos Nat (fun c => c != 0) l []
    (fun a ha => by simpa using h a ha)
  simpa using happ

lemma strRead_append_zero (l : List Nat) (h : ∀ c ∈ l, c ≠ 0) :
    strRead (l ++ [0]) = l := by
  unfold strRead
  rw [List.takeWhile_append_of_pos (fun a ha => by simpa using h a ha)]
  simp

lemma rev_getElem?_lt (l : List Nat) (i : Nat) (hi : i < l.length - 1) :
    (rev l)[i]? = l[l.length - 2 - i]? := by
  have hidx : l.length - 2 - i < l.length := by omega
  rw [rev, List.getElem?_map, List.getElem?_range hi, List.getElem?_eq_getElem hidx]
  simp [List.getElem?_eq_getElem hidx]

lemma rev_eq_dropLast_reverse (l : List Nat) : rev l = l.dropLast.reverse := by
  apply List.ext_getElem?
  intro n
  by_cases hn : n < l.length - 1
  · rw [rev_getElem?_lt l n hn]
    have hrev := List.getElem?_reverse (l := l.dropLast) (i := n)
      (by simpa [List.length_dropLast] using hn)
    rw [hrev, List.getElem?_dropLast]
    rw [if_pos (by simp [List.length_dropLast]; omega)]
    congr 1
    simp [List.length_dropLast]
    omega
  · have h1 : (rev l).length ≤ n := by simp [rev]; omega
    have h2 : l.dropLast.reverse.length ≤ n := by
      simp [List.length_dropLast]; omega
    rw [List.getElem?_eq_none h1, List.getElem?_eq_none h2]

/-- Invariant of Day1's loop: entering an iteration that still has to
process `rest` after `t0` steps, the state is `k_bit_index = t0 % 7` and
`k_index = t0 / 7 % |key|` with `k_char` loaded at that index, and every
later iteration `j` emits the byte determined by bit `(t0+j) % 7` of key
byte `(t0+j) / 7 % |key|`, paired with that key index. -/
lemma cryptALoop_get? (key : List Nat) (hk : 0 < key.length) :
    ∀ (rest : List Nat) (t0 j b : Nat), rest[j]? = some b →
      (cryptALoop key (keyByte key (t0 / 7 % key.length)) (t0 / 7 % key.length)
          (t0 % 7) rest).1[j]? =
        some (if (keyByte key ((t0 + j) / 7 % key.length)).testBit ((t0 + j) % 7)
              then (b ^^^ keyByte key ((t0 + j) / 7 % key.length)) % 256
              else b,
              (t0 + j) / 7 % key.length)
  | [], t0, j, b, hb => by simp at hb
  | x :: rest, t0, 0, b, hb => by
    have hxb : x = b := by simpa using hb
    subst hxb
    simp only [cryptALoop, List.getElem?_cons_zero, Nat.add_zero]
    by_cases htb : (keyByte key (t0 / 7 % key.length)).testBit (t0 % 7)
    · rw [if_pos ((bit_test_iff _ _).mpr htb), if_pos htb]
    · rw [if_neg (fun hc => htb ((bit_test_iff _ _).mp hc)), if_neg htb]
  | x :: rest, t0, j + 1, b, hb => by
    have hb2 : rest[j]? = some b := by simpa using hb
    have hkb2 : (if t0 % 7 + 1 = 7 then 0 else t0 % 7 + 1) = (t0 + 1) % 7 := by
      by_cases h6 : t0 % 7 + 1 = 7 <;> simp only [h6, if_true, if_false] <;> omega
    have hki2 :
        (if (if t0 % 7 + 1 = 7 then t0 / 7 % key.length + 1 else t0 / 7 % key.length) =
            key.length
         then 0
         else if t0 % 7 + 1 = 7 then t0 / 7 % key.length + 1 else t0 / 7 % key.length) =
          (t0 + 1) / 7 % key.length := by
      by_cases h6 : t0 % 7 + 1 = 7
      · simp only [h6, if_true]
        have hdiv : (t0 + 1) / 7 = t0 / 7 + 1 := by omega
        rw [hdiv]
        exact mod_wrap_succ (t0 / 7) key.length hk
      · simp only [h6, if_false]
        have hdiv : (t0 + 1) / 7 = t0 / 7 := by omega
        have hlt : t0 / 7 % key.length < key.length := Nat.mod_lt _ hk
        rw [if_neg (by omega), hdiv]
    have ih := cryptALoop_get? key hk rest (t0 + 1) j b hb2
    simp only [cryptALoop, List.getElem?_cons_succ]
    rw [hki2, hkb2, ih]
    have harith : t0 + 1 + j = t0 + (j + 1) := by omega
    rw [harith]

/-- All `k_index` values of Day1's loop stay below the key length, the final
one included, as long as the incoming index does. -/
lemma cryptALoop_indices (key : List Nat) (hk : 0 < key.length) :
    ∀ (rest : List Nat) (kc ki kb : Nat), ki < key.length →
      (∀ e ∈ (cryptALoop key kc ki kb rest).1, e.2 < key.length) ∧
      (cryptALoop key kc ki kb rest).2 < key.length
  | [], kc, ki, kb, hki => by
    refine ⟨?_, by simpa [cryptALoop] using hki⟩
    intro e he
    simp [cryptALoop] at he
  | x :: rest, kc, ki, kb, hki => by
    have hnext :
        (if (if kb + 1 = 7 then ki + 1 else ki) = key.length then 0
         else if kb + 1 = 7 then ki + 1 else ki) < key.length := by
      by_cases h7 : kb + 1 = 7 <;> simp only [h7, if_true, if_false] <;> split <;> omega
    have ih := cryptALoop_indices key hk rest
      (keyByte key (if (if kb + 1 = 7 then ki + 1 else ki) = key.length then 0
        else if kb + 1 = 7 then ki + 1 else ki))
      (if (if kb + 1 = 7 then ki + 1 else ki) = key.length then 0
        else if kb + 1 = 7 then ki + 1 else ki)
      (if kb + 1 = 7 then 0 else kb + 1) hnext
    constructor
    · intro e he
      simp only [cryptALoop, List.mem_cons] at he
      rcases he with rfl | he
      · exact hki
      · exact ih.1 e he
    · simpa only [cryptALoop] using ih.2

/-- Day3's loop at index `i0`: iteration `j` transforms its byte according
to `(i0 + j) % (p + q)`. -/
lemma cryptBLoop_get? (p q : Int) :
    ∀ (rest : List Nat) (i0 j b : Nat), rest[j]? = some b →
      (cryptBLoop p q i0 rest)[j]? =
        some (if ((i0 + j : Nat) : Int) % (p + q) > p - 1
              then (b + 255) % 256 else (b + 1) % 256)
  | [], i0, j, b, hb => by simp at hb
  | x :: rest, i0, 0, b, hb => by
    have hxb : x = b := by simpa using hb
    subst hxb
    simp only [cryptBLoop, List.getElem?_cons_zero, Nat.add_zero]
  | x :: rest, i0, j + 1, b, hb => by
    have hb2 : rest[j]? = some b := by simpa using hb
    have ih := cryptBLoop_get? p q rest (i0 + 1) j b hb2
    simp only [cryptBLoop, List.getElem?_cons_succ]
    rw [ih]
    have harith : i0 + 1 + j = i0 + (j + 1) := by omega
    rw [harith]

/-- Every entry Day5's loop emits is either a pass-through byte (skip
branch, flag `false`) or the byte XORed with 127 (flip branch, flag
`true`), whatever the counters do. -/
lemma cryptCLoop_get? (key : List Nat) (n : Nat) :
    ∀ (rest : List Nat) (ri si ki : Nat) (skip : Bool) (j b : Nat),
      rest[j]? = some b → b < 256 →
      ∃ e, (cryptCLoop key n ri si ki skip rest)[j]? = some e ∧
        (e.2.1 = true → e.1 ^^^ 127 = b) ∧ (e.2.1 = false → e.1 = b) ∧
        (e.1 = b ∨ e.1 = b ^^^ 127)
  | [], _, _, _, _, j, b, hb, _ => by simp at hb
  | x :: rest, ri, si, ki, skip, 0, b, hb, hb256 => by
    have hxb : x = b := by simpa using hb
    subst hxb
    cases skip
    · have hxlt : x ^^^ 127 < 256 := by
        have h8 : x < 2 ^ 8 := by norm_num at *; omega
        have h127 : (127 : Nat) < 2 ^ 8 := by norm_num
        have := Nat.xor_lt_two_pow h8 h127
        norm_num at this; omega
      have hmod : (x ^^^ 127) % 256 = x ^^^ 127 := Nat.mod_eq_of_lt hxlt
      refine ⟨((x ^^^ 127) % 256, true, ki), by simp [cryptCLoop], ?_, ?_, ?_⟩
      · intro _
        rw [hmod]
        exact Nat.xor_cancel_right 127 x
      · intro h; exact absurd h (by simp)
      · right; rw [hmod]
    · refine ⟨(x, false, ki), by simp [cryptCLoop], ?_, ?_, ?_⟩
      · intro h; exact absurd h (by simp)
      · intro _; rfl
      · left; rfl
  | x :: rest, ri, si, ki, skip, j + 1, b, hb, hb256 => by
    have hb2 : rest[j]? = some b := by simpa using hb
    cases skip
    · simp only [cryptCLoop, Bool.false_eq_true, if_false, List.getElem?_cons_succ]
      exact cryptCLoop_get? key n rest _ _ _ _ j b hb2 hb256
    · simp only [cryptCLoop, if_true, List.getElem?_cons_succ]
      exact cryptCLoop_get? key n rest _ _ _ _ j b hb2 hb256

/-- Day5's transform is length-preserving. -/
lemma cryptCLoop_length (key : List Nat) (n : Nat) :
    ∀ (rest : List Nat) (ri si ki : Nat) (skip : Bool),
      (cryptCLoop key n ri si ki skip rest).length = rest.length
  | [], _, _, _, _ => rfl
  | x :: rest, ri, si, ki, skip => by
    cases skip <;> simp [cryptCLoop, cryptCLoop_length key n rest]

/-- Day5's transform keeps 7-bit bytes 7-bit (the flip is XOR with 127). -/
lemma cryptCLoop_bytes_lt (key : List Nat) (n : Nat) :
    ∀ (rest : List Nat) (ri si ki : Nat) (skip : Bool), (∀ b ∈ rest, b < 128) →
      ∀ e ∈ cryptCLoop key n ri si ki skip rest, e.1 < 128
  | [], _, _, _, _, _, e, he => by simp [cryptCLoop] at he
  | x :: rest, ri, si, ki, skip, hlt, e, he => by
    have hx : x < 128 := hlt x (List.mem_cons_self x rest)
    have hrest : ∀ b ∈ rest, b < 128 := fun b hb => hlt b (List.mem_cons_of_mem _ hb)
    have hflip : (x ^^^ 127) % 256 < 128 := by
      have h7 : x < 2 ^ 7 := by norm_num; omega
      have h127 : (127 : Nat) < 2 ^ 7 := by norm_num
      have hxor := Nat.xor_lt_two_pow h7 h127
      norm_num at hxor
      omega
    cases skip
    · simp only [cryptCLoop, Bool.false_eq_true, if_false, List.mem_cons] at he
      rcases he with rfl | he
      · exact hflip
      · exact cryptCLoop_bytes_lt key n rest _ _ _ _ hrest e he
    · simp only [cryptCLoop, if_true, List.mem_cons] at he
      rcases he with rfl | he
      · exact hx
      · exact cryptCLoop_bytes_lt key n rest _ _ _ _ hrest e he

/-! ### Claim theorems -/

/-- C1: Variant A: for every non-empty key and non-empty plaintext, the
output byte at position `t` is the input byte XORed with the whole current
key byte when the tested key bit is set and the input byte unchanged when
it is clear, where position `t` tests bit `t % 7` of key byte
`key[t / 7 % |key|]` (7-bit, not 8-bit, period; key index wraps at the key
length). -/
theorem cryptA_bit_schedule (key pt : List Nat) (hk : key ≠ []) (hp : pt ≠ [])
    (t b : Nat) (hb : pt[t]? = some b) :
    (cryptA_bytes key pt)[t]? =
      some (if (keyByte key (t / 7 % key.length)).testBit (t % 7)
            then (b ^^^ keyByte key (t / 7 % key.length)) % 256
            else b) := by
  have hk0 : 0 < key.length := List.length_pos.mpr hk
  have h := cryptALoop_get? key hk0 pt 0 t b hb
  simp only [Nat.zero_add, Nat.zero_div, Nat.zero_mod] at h
  simp only [cryptA_bytes, cryptATrace, List.getElem?_map, h]
  rfl

/-- Witness for C1 at the spec's own scenario: key byte 0x01, plaintext
byte 0x41; bit 0 of the key is set, so the output is 0x41 XOR 0x01 =
0x40. -/
theorem cryptA_bit_schedule_witness :
    ([1] : List Nat) ≠ [] ∧ ([65] : List Nat) ≠ [] ∧
    (([65] : List Nat)[0]? = some 65) ∧
    (cryptA_bytes [1] [65])[0]? =
      some (if (keyByte [1] (0 / 7 % ([1] : List Nat).length)).testBit (0 % 7)
            then (65 ^^^ keyByte [1] (0 / 7 % ([1] : List Nat).length)) % 256
            else 65) :=
  ⟨by decide, by decide, by decide,
    cryptA_bit_schedule [1] [65] (by decide) (by decide) 0 65 (by decide)⟩

/-- C10: Variant A key-index invariant: with a non-empty key and non-empty
plaintext, every `k_index` at which the loop reads the key (each iteration
entry and the final trailing `k_char = key[k_index]` load) is below the key
length. -/
theorem cryptA_key_index_in_bounds (key pt : List Nat) (hk : key ≠ []) (hp : pt ≠ []) :
    (∀ e ∈ cryptATrace key pt, e.2 < key.length) ∧
    cryptAFinalIndex key pt < key.length := by
  have hk0 : 0 < key.length := List.length_pos.mpr hk
  have h := cryptALoop_indices key hk0 pt (keyByte key 0) 0 0 hk0
  exact ⟨fun e he => h.1 e he, h.2⟩

/-- Witness for C10 at a concrete key and plaintext. -/
theorem cryptA_key_index_in_bounds_witness :
    ([65, 66] : List Nat) ≠ [] ∧ ([1, 2, 3, 4, 5, 6, 7, 8] : List Nat) ≠ [] ∧
    ((∀ e ∈ cryptATrace [65, 66] [1, 2, 3, 4, 5, 6, 7, 8],
        e.2 < ([65, 66] : List Nat).length) ∧
      cryptAFinalIndex [65, 66] [1, 2, 3, 4, 5, 6, 7, 8] < ([65, 66] : List Nat).length) :=
  ⟨by decide, by decide,
    cryptA_key_index_in_bounds [65, 66] [1, 2, 3, 4, 5, 6, 7, 8] (by decide) (by decide)⟩

/-- C2: Variant B: for positive `p` and `q`, the byte at index `i` is
decremented (wrapping mod 256) when `i % (p+q) ≥ p` and incremented
(wrapping mod 256) otherwise. -/
theorem cryptB_periodic_incdec (p q : Int) (hp : 1 ≤ p) (hq : 1 ≤ q)
    (pt : List Nat) (i b : Nat) (hb : pt[i]? = some b) :
    (cryptB_bytes p q pt)[i]? =
      some (if p ≤ (i : Int) % (p + q) then (b + 255) % 256 else (b + 1) % 256) := by
  have h := cryptBLoop_get? p q pt 0 i b hb
  simp only [Nat.zero_add] at h
  simp only [cryptB_bytes, h]
  congr 1
  exact if_congr (by omega) rfl rfl

/-- Witness for C2 at the spec's own scenario: `transform_b(2,1,"AB")`
increments index 0 (`0 % 3 = 0 < 2`). -/
theorem cryptB_periodic_incdec_witness :
    (1 : Int) ≤ 2 ∧ (1 : Int) ≤ 1 ∧ (([65, 66] : List Nat)[0]? = some 65) ∧
    (cryptB_bytes 2 1 [65, 66])[0]? =
      some (if (2 : Int) ≤ ((0 : Nat) : Int) % (2 + 1) then (65 + 255) % 256
            else (65 + 1) % 256) :=
  ⟨by decide, by decide, by decide,
    cryptB_periodic_incdec 2 1 (by decide) (by decide) [65, 66] 0 65 (by decide)⟩

/-- C8: Variant C per-byte relation: every trace entry is either a flip
step, whose output XOR 0x7F recovers the input byte, or a skip step, whose
output equals the input byte; hence every output byte is the input byte or
the input byte XOR 0x7F. -/
theorem cryptC_flip_or_pass (key : List Nat) (n : Nat) (pt : List Nat) (i b : Nat)
    (hb : pt[i]? = some b) (h256 : b < 256) :
    ∃ e, (cryptCTrace key n pt)[i]? = some e ∧
      (e.2.1 = true → e.1 ^^^ 127 = b) ∧ (e.2.1 = false → e.1 = b) ∧
      (e.1 = b ∨ e.1 = b ^^^ 127) :=
  cryptCLoop_get? key n pt 0 0 0 false i b hb h256

/-- Witness for C8 at a concrete input. -/
theorem cryptC_flip_or_pass_witness :
    (([65] : List Nat)[0]? = some 65) ∧ 65 < 256 ∧
    (∃ e, (cryptCTrace [50] 1 [65])[0]? = some e ∧
      (e.2.1 = true → e.1 ^^^ 127 = 65) ∧ (e.2.1 = false → e.1 = 65) ∧
      (e.1 = 65 ∨ e.1 = 65 ^^^ 127)) :=
  ⟨by decide, by decide, cryptC_flip_or_pass [50] 1 [65] 0 65 (by decide) (by decide)⟩

/-- C7: the Byte Reverser: on input of length `L ≥ 1`, `rev` returns the
length-`L-1` sequence whose element `i` is input element `L-2-i`, i.e. the
input reversed with its final element dropped. -/
theorem rev_reverse_drop_last (input : List Nat) (h : 1 ≤ input.length) :
    (rev input).length = input.length - 1 ∧
    (∀ i, i < input.length - 1 → (rev input)[i]? = input[input.length - 2 - i]?) ∧
    rev input = input.dropLast.reverse := by
  refine ⟨by simp [rev], ?_, rev_eq_dropLast_reverse input⟩
  intro i hi
  exact rev_getElem?_lt input i hi

/-- Witness for C7 at a concrete input. -/
theorem rev_reverse_drop_last_witness :
    1 ≤ ([1, 2, 3] : List Nat).length ∧
    ((rev [1, 2, 3]).length = ([1, 2, 3] : List Nat).length - 1 ∧
     (∀ i, i < ([1, 2, 3] : List Nat).length - 1 →
        (rev [1, 2, 3])[i]? = ([1, 2, 3] : List Nat)[([1, 2, 3] : List Nat).length - 2 - i]?) ∧
     rev [1, 2, 3] = ([1, 2, 3] : List Nat).dropLast.reverse) :=
  ⟨by decide, rev_reverse_drop_last [1, 2, 3] (by decide)⟩

/-- C4 counterexample: on the byte sequence `[0x80, 0x41, 0x42, 0x43]` the
encoder does not render byte 0 as its two hex digits `80`: the signed-char
sign extension makes `sprintf` print `FFFFFF80`, and after the later fields
overwrite part of it the returned string is `FF414243`, not `80414243`. -/
theorem charToHex_contract_counterexample :
    charToHex [128, 65, 66, 67] ≠ hexEncodeSpec [128, 65, 66, 67] := by decide

/-- C4 amended: for byte sequences whose bytes are all below 0x80 (so the
signed `char` is non-negative), the encoder returns exactly `2L` uppercase
hexadecimal digits, two per byte, zero-padded, most-significant nibble
first, in input order, with no separators. -/
theorem charToHex_ascii_contract (bytes : List Nat) (h : ∀ b ∈ bytes, b < 128) :
    charToHex bytes = hexEncodeSpec bytes ∧
    (charToHex bytes).length = 2 * bytes.length := by
  have heq : charToHex bytes = hexEncodeSpec bytes := by
    rw [charToHex, hexBuf_ascii bytes h]
    exact strRead_append_zero _ (fun c hc => by have := hexEncodeSpec_pos bytes c hc; omega)
  exact ⟨heq, by rw [heq, hexEncodeSpec_length]⟩

/-- Witness for the amended C4 at a concrete input. -/
theorem charToHex_ascii_contract_witness :
    (∀ b ∈ ([0, 65, 127] : List Nat), b < 128) ∧
    (charToHex [0, 65, 127] = hexEncodeSpec [0, 65, 127] ∧
     (charToHex [0, 65, 127]).length = 2 * ([0, 65, 127] : List Nat).length) :=
  ⟨by decide, charToHex_ascii_contract [0, 65, 127] (by decide)⟩

/-- C5 counterexample: for the two-byte plaintext `AB` (key `2`, n = 1) the
final output of Variant C has 4 characters, not `2*len(P) - 2 = 2`: `rev`
receives the hex buffer together with its NUL terminator (length
`2*len + 1`), so only the terminator is dropped and nothing is
truncated. -/
theorem cryptC_output_length_counterexample :
    (strRead (cryptC [50] 1 [65, 66])).length ≠ 2 * ([65, 66] : List Nat).length - 2 := by
  decide

/-- C5 amended: for every non-empty plaintext of bytes below 0x80, the
final output of Variant C is the hex encoding of the transformed bytes
reversed in full — exactly `2*len(P)` characters, with no truncation. -/
theorem cryptC_reversed_hex_output (key : List Nat) (n : Nat) (pt : List Nat)
    (hp : pt ≠ []) (h128 : ∀ b ∈ pt, b < 128) :
    strRead (cryptC key n pt) = (hexEncodeSpec (cryptC_bytes key n pt)).reverse ∧
    (strRead (cryptC key n pt)).length = 2 * pt.length := by
  have hltct : ∀ b ∈ cryptC_bytes key n pt, b < 128 := by
    intro b hb
    simp only [cryptC_bytes, cryptCTrace, List.mem_map] at hb
    obtain ⟨e, he, rfl⟩ := hb
    exact cryptCLoop_bytes_lt key n pt 0 0 0 false h128 e he
  have hlen : (cryptC_bytes key n pt).length = pt.length := by
    simp [cryptC_bytes, cryptCTrace, cryptCLoop_length]
  have hrev : cryptC key n pt = (hexEncodeSpec (cryptC_bytes key n pt)).reverse := by
    simp only [cryptC, charToHexD5, hexBuf_ascii _ hltct, rev_eq_dropLast_reverse]
    rw [List.dropLast_concat]
  have hne : ∀ c ∈ (hexEncodeSpec (cryptC_bytes key n pt)).reverse, c ≠ 0 := by
    intro c hc
    rw [List.mem_reverse] at hc
    have := hexEncodeSpec_pos _ c hc
    omega
  refine ⟨by rw [hrev]; exact strRead_of_pos _ hne, ?_⟩
  rw [hrev, strRead_of_pos _ hne]
  simp [hexEncodeSpec_length, hlen]

/-- Witness for the amended C5 at a concrete input: the output is `24E3`,
the reversal of hex `3E42`. -/
theorem cryptC_reversed_hex_output_witness :
    ([65, 66] : List Nat) ≠ [] ∧ (∀ b ∈ ([65, 66] : List Nat), b < 128) ∧
    (strRead (cryptC [50] 1 [65, 66]) =
        (hexEncodeSpec (cryptC_bytes [50] 1 [65, 66])).reverse ∧
      (strRead (cryptC [50] 1 [65, 66])).length = 2 * ([65, 66] : List Nat).length) :=
  ⟨by decide, by decide, cryptC_reversed_hex_output [50] 1 [65, 66] (by decide) (by decide)⟩

/-- C3: evaluation of Day5's `crypt` at key `1` (ASCII digit, repeat count
1), n = 1, plaintext `AA`.  The code flips BOTH bytes (`[62, 62]`): because
line 50 sets `skip = repeat_index < digit`, the skip phase is entered only
while the repeat counter is still BELOW the digit, so with digit 1 the key
never advances and flipping never stops.  The documented behaviour (file
header comment and spec: flip until the repeat counter REACHES the digit,
then skip `n` bytes) would leave byte 1 unchanged, giving `[62, 65]`. -/
theorem cryptC_advance_condition_eval :
    cryptC_bytes [49] 1 [65, 65] = [62, 62] ∧
    cryptC_bytes [49] 1 [65, 65] ≠ [62, 65] := by decide

/-- C6: there are a non-empty key and plaintext for which Day5's flip
branch reads the key at index equal to the key length (the NUL terminator)
— the wrap check `key_index > strlen(key)` lets `key_index == strlen(key)`
through.  With key `2`, n = 1, plaintext `AAA`, the third iteration reads
`key[1]` while the key has length 1. -/
theorem cryptC_key_index_overrun :
    ∃ (key pt : List Nat) (n : Nat), key ≠ [] ∧ pt ≠ [] ∧
      key.length ∈ cryptCKeyReads key n pt :=
  ⟨[50], [65, 65, 65], 1, by decide, by decide, by decide⟩

/-- C9: on an empty plaintext every variant's `do while` body still runs
once and its first buffer access (reading `plaintext[0]`, then writing
`ciphertext[0]` into the zero-length `calloc`) is out of bounds, so the
bounds-checked renditions return `none` instead of an empty output;
likewise an empty key makes the keyed variants A and C fail on their first
key read. -/
theorem crypt_empty_input_oob :
    (∀ key : List Nat, cryptAChecked key [] = none) ∧
    (∀ p q : Int, cryptBChecked p q [] = none) ∧
    (∀ (key : List Nat) (n : Nat), cryptCChecked key n [] = none) ∧
    (∀ pt : List Nat, cryptAChecked [] pt = none) ∧
    (∀ (n : Nat) (pt : List Nat), cryptCChecked [] n pt = none) := by
  refine ⟨?_, ?_, ?_, ?_, ?_⟩
  · intro key; cases key <;> rfl
  · intro p q; rfl
  · intro key n; cases key <;> rfl
  · intro pt; rfl
  · intro n pt
    cases pt with
    | nil => rfl
    | cons b rest => simp [cryptCChecked, cryptCCheckedLoop]

end FiveDays
